import Mathlib

/-!
Verification of the `schedgroup` package (conferences/2020/gopherconeu/final):
a goroutine worker pool that schedules tasks to run at or after a deadline.

The embedding models:
* instants (`time.Time`) as integers, with `0` playing the role of the zero
  `time.Time{}` sentinel (`IsZero`);
* task bodies (`func()`) as opaque identifiers, since the package never
  inspects a body, it only launches it;
* the `tasks` slice together with Go's `container/heap` algorithms
  (`up`, `down`, `heap.Push`, `heap.Pop`) as list-manipulating functions;
* the concurrent behaviour of `New`/`Schedule`/`Wait`/`monitor` as a
  small-step transition system over an explicit `Sys` state.

Loops over indices are written with an explicit fuel argument so that every
definition is structurally recursive and evaluates by `decide`; each call
site passes a fuel that provably bounds the number of iterations (sift-up
halves the index, sift-down at least increments it, the trigger loop pops
one element per iteration).
-/

namespace Schedgroup

/-- A `task` from group.go: a deadline paired with a function to call.
The body `func()` is opaque to the scheduler, so it is modelled as a bare
identifier. -/
structure task where
  Deadline : Int
  Call : Nat
deriving DecidableEq, Repr

/-- Total indexing into the task slice (all real accesses are in bounds). -/
def getT (l : List task) (i : Nat) : task :=
  l.getD i ⟨0, 0⟩

/-- `pq.Swap(i, j)` from group.go: exchange two slice entries. -/
def lswap (l : List task) (i j : Nat) : List task :=
  (l.set i (getT l j)).set j (getT l i)

/-- `pq.Less(i, j)` from group.go: `pq[i].Deadline.Before(pq[j].Deadline)`. -/
def lessT (l : List task) (i j : Nat) : Prop :=
  (getT l i).Deadline < (getT l j).Deadline

instance (l : List task) (i j : Nat) : Decidable (lessT l i j) := by
  unfold lessT; infer_instance

/-- `container/heap.up`: bubble index `j` towards the root while it is
smaller than its parent.  `fuel ≥ j` bounds the iterations since the index
at least halves each round. -/
def siftUp (fuel : Nat) (l : List task) (j : Nat) : List task :=
  match fuel with
  | 0 => l
  | fuel + 1 =>
    if j = 0 then l
    else if lessT l j ((j - 1) / 2) then
      siftUp fuel (lswap l ((j - 1) / 2) j) ((j - 1) / 2)
    else l

/-- The index of the smaller child of `i` within bound `n` (Go picks the
right child only when it exists and is strictly smaller). -/
def minChild (l : List task) (i n : Nat) : Nat :=
  if 2 * i + 2 < n ∧ lessT l (2 * i + 2) (2 * i + 1) then 2 * i + 2
  else 2 * i + 1

/-- `container/heap.down` restricted to the first `n` entries: push index
`i` down while a child within `n` is smaller, preferring the smaller child.
`fuel ≥ n - i` bounds the iterations since the index strictly increases and
stays below `n`. -/
def siftDown (fuel : Nat) (l : List task) (i n : Nat) : List task :=
  match fuel with
  | 0 => l
  | fuel + 1 =>
    if 2 * i + 1 < n then
      if lessT l (minChild l i n) i then
        siftDown fuel (lswap l i (minChild l i n)) (minChild l i n) n
      else l
    else l

/-- `heap.Push(&g.tasks, t)`: append `t`, then sift it up from the last
index. -/
def heapPush (l : List task) (t : task) : List task :=
  siftUp l.length (l ++ [t]) l.length

/-- `heap.Pop(&g.tasks)`: swap the root with the last entry, sift the new
root down within the shortened bound, then split off the last entry (the
old root) as the popped item.  Never called on an empty heap by the
package (Go would panic); the empty case returns a dummy. -/
def heapPop (l : List task) : task × List task :=
  match l with
  | [] => (⟨0, 0⟩, [])
  | _ :: _ =>
    let n := l.length - 1
    let l2 := siftDown l.length (lswap l 0 n) 0 n
    (getT l2 n, l2.take n)

/-- The binary min-heap shape invariant of the `tasks` slice: every entry
below the root is no earlier than its parent. -/
def IsMinHeap (l : List task) : Prop :=
  ∀ c, c < l.length → 0 < c →
    (getT l ((c - 1) / 2)).Deadline ≤ (getT l c).Deadline

instance (l : List task) : Decidable (IsMinHeap l) := by
  unfold IsMinHeap; infer_instance

/-- The loop of `Group.trigger` (group.go lines 193-211): while the heap is
non-empty, look at the root; if `next.Deadline.After(now)` return that
deadline so the monitor timer knows when to wake; otherwise pop the root
and launch its body (`wg.Add(1)`; `go t.Call()`).  When the heap empties,
return the zero instant to stop the timer.  Results are
`(popped bodies in launch order, remaining heap, returned instant)`.
One element is popped per iteration, so `fuel = l.length` suffices. -/
def triggerLoop (fuel : Nat) (l : List task) (now : Int) :
    List task × List task × Int :=
  match fuel with
  | 0 => ([], l, 0)
  | fuel + 1 =>
    match l with
    | [] => ([], [], 0)
    | _ :: _ =>
      if now < (getT l 0).Deadline then ([], l, (getT l 0).Deadline)
      else
        ((heapPop l).1 :: (triggerLoop fuel (heapPop l).2 now).1,
         (triggerLoop fuel (heapPop l).2 now).2)

/-- `Group.trigger` restricted to its heap effect: the launches, the heap
left behind, and the instant returned to the monitor. -/
def triggerGo (l : List task) (now : Int) : List task × List task × Int :=
  triggerLoop l.length l now

/-- `Group.Schedule` (group.go lines 67-81): under the mutex, push
`(when, fn)` onto the heap; then non-blockingly ping `addC`.  The function
body contains no state check and no failure path, so the embedding is a
total function on the heap. -/
def Schedule (l : List task) (when : Int) (fn : Nat) : List task :=
  heapPush l ⟨when, fn⟩

/-- `Group.Delay` (group.go lines 59-61): `g.Schedule(time.Now().Add(delay), fn)`.
`now` is the current instant read by `time.Now()` at the call. -/
def Delay (l : List task) (now delay : Int) (fn : Nat) : List task :=
  Schedule l (now + delay) fn

/-- Modelled from the spec (refinement reference for `Delay`): the spec
says `Delay(duration, body)` is "Equivalent to `Schedule(now + duration,
body)`". -/
def delaySpec (l : List task) (now duration : Int) (fn : Nat) : List task :=
  Schedule l (now + duration) fn

/-- The monitor's per-iteration view of its timer and select sources. -/
structure TimerView where
  /-- `some d` when `t.Reset(d)` was called this iteration; `none` when
  `t.Stop()` was called. -/
  armed : Option Int
  /-- Whether `tickC` is the timer's channel (`true`) or `nil` (`false`). -/
  tickEnabled : Bool
deriving DecidableEq, Repr

/-- The channels a monitor iteration can block on in its select. -/
inductive MonChan where
  | ctxDone
  | addC
  | tick
deriving DecidableEq, Repr

/-- `Group.monitor` timer handling (group.go lines 147-156): with `next`
the instant returned by `trigger(now)`, if `!next.IsZero()` the single
reusable timer is reset to `next.Sub(now)` and `tickC` is set to its
channel; otherwise the timer is stopped and `tickC` stays `nil`. -/
def monitorTimer (next now : Int) : TimerView :=
  if next ≠ 0 then ⟨some (next - now), true⟩ else ⟨none, false⟩

/-- The select sources of a monitor iteration (group.go lines 160-167):
always the derived context's done channel and `addC`; the timer channel
only when `tickC` is non-nil. -/
def monitorSelect (tv : TimerView) : List MonChan :=
  [MonChan.ctxDone, MonChan.addC] ++ (if tv.tickEnabled then [MonChan.tick] else [])

/-- A context error, as returned by `ctx.Err()` once a context is done. -/
inductive CtxErr where
  | canceled
  | deadlineExceeded
deriving DecidableEq, Repr

/-- Where the single `Wait` caller stands. -/
inductive WaitPhase where
  /-- `Wait` has not been called. -/
  | notEntered
  /-- `Wait` is parked in its select loop (group.go lines 114-130). -/
  | looping
  /-- `Wait` has observed completion, called `g.cancel()`, and is blocked
  in `g.wg.Wait()`. -/
  | waitingWG
  /-- `Wait` has returned this value. -/
  | returned (r : Option CtxErr)
deriving DecidableEq, Repr

/-- The shared state of one `Group` together with the progress of its
monitor, its launched task bodies, and the single `Wait` caller.

The transition system built on this state models executions that respect
the package's documented usage contract: `Wait` is called by at most one
goroutine (a single `WaitPhase` field) and `Schedule`/`Delay` are not
called after `Wait` (the `schedule` step is guarded by `notEntered`);
group.go documents both restrictions. -/
structure Sys where
  /-- `g.tasks`, the heap slice. -/
  heap : List task
  /-- Every task popped and launched by `trigger`, in launch order. -/
  launched : List task
  /-- Launched bodies whose goroutine has not yet run `wg.Done()`. -/
  running : Nat
  /-- Launched bodies whose goroutine has completed. -/
  finished : Nat
  /-- Whether the monitor goroutine is still live. -/
  monitorAlive : Bool
  /-- The `sync.WaitGroup` counter: one for the monitor plus one per
  running body. -/
  wg : Nat
  /-- `g.ctx.Err()`: the outer context's error once it fires. -/
  ctxErr : Option CtxErr
  /-- Whether the derived monitor context `mctx` is done (fires with the
  outer context, or via `g.cancel()`). -/
  mctxDone : Bool
  /-- The `Wait` caller's phase. -/
  wait : WaitPhase
deriving DecidableEq, Repr

/-- The state right after `New` (group.go lines 33-52): empty heap,
`wg.Add(1)` for the monitor goroutine, contexts live, `Wait` not called. -/
def initSys : Sys :=
  { heap := [], launched := [], running := 0, finished := 0,
    monitorAlive := true, wg := 1, ctxErr := none, mctxDone := false,
    wait := WaitPhase.notEntered }

/-- The heap-side effect of one `trigger(now)` pass on the system: pop the
ready tasks, add one `wg` count and one running body per pop, record the
launches. -/
def triggerAt (s : Sys) (now : Int) : Sys :=
  { s with heap := (triggerGo s.heap now).2.1,
           launched := s.launched ++ (triggerGo s.heap now).1,
           running := s.running + (triggerGo s.heap now).1.length,
           wg := s.wg + (triggerGo s.heap now).1.length }

/-- `Wait`'s handling of a value received on `g.lenC` (group.go lines
118-129): first recheck `g.ctx.Err()` and return it if set; otherwise, if
the received count is zero, call `g.cancel()` and move to `wg.Wait()`;
otherwise keep looping. -/
def recvLen (s : Sys) (n : Nat) : Sys :=
  match s.ctxErr with
  | some e => { s with wait := WaitPhase.returned (some e) }
  | none =>
    if n = 0 then { s with mctxDone := true, wait := WaitPhase.waitingWG }
    else { s with wait := WaitPhase.looping }

/-- `Wait`'s entry (group.go lines 89-107): return `ctx.Err()` if the
outer context is already done; otherwise, under the mutex, if the heap is
already empty, call `g.cancel()` and move to `wg.Wait()`; otherwise enter
the receive loop. -/
def waitEnterFn (s : Sys) : Sys :=
  match s.ctxErr with
  | some e => { s with wait := WaitPhase.returned (some e) }
  | none =>
    if s.heap.length = 0 then
      { s with mctxDone := true, wait := WaitPhase.waitingWG }
    else { s with wait := WaitPhase.looping }

/-- One interleaved step of the group, its monitor, its launched bodies,
and the `Wait` caller.  `lenC` and `addC` are unbuffered with non-blocking
sends, so a `trigger` pass either rendezvouses with a parked `Wait`
(`triggerDeliver`, the count sent is the post-pass heap length, under the
mutex) or its send is dropped (`triggerSilent`). -/
inductive Step : Sys → Sys → Prop where
  /-- A producer calls `Schedule` (contract: before `Wait`). -/
  | schedule (s : Sys) (when : Int) (fn : Nat)
      (hw : s.wait = WaitPhase.notEntered) :
      Step s { s with heap := Schedule s.heap when fn }
  /-- The outer context fires with error `e`; the derived context fires
  with it. -/
  | cancelOuter (s : Sys) (e : CtxErr) (h : s.ctxErr = none) :
      Step s { s with ctxErr := some e, mctxDone := true }
  /-- The monitor runs `trigger(now)`; the `lenC` send finds no receiver
  and is dropped. -/
  | triggerSilent (s : Sys) (now : Int) (hm : s.monitorAlive = true) :
      Step s (triggerAt s now)
  /-- The monitor runs `trigger(now)`; `Wait` is parked in its loop and
  receives the published heap length. -/
  | triggerDeliver (s : Sys) (now : Int) (hm : s.monitorAlive = true)
      (hw : s.wait = WaitPhase.looping) :
      Step s (recvLen (triggerAt s now) (triggerGo s.heap now).2.1.length)
  /-- The single `Wait` caller enters `Wait`. -/
  | waitEnter (s : Sys) (hw : s.wait = WaitPhase.notEntered) :
      Step s (waitEnterFn s)
  /-- Parked `Wait` takes the `<-g.ctx.Done()` branch. -/
  | waitCtxDone (s : Sys) (e : CtxErr) (hw : s.wait = WaitPhase.looping)
      (he : s.ctxErr = some e) :
      Step s { s with wait := WaitPhase.returned (some e) }
  /-- `g.wg.Wait()` returns (counter at zero) and `Wait` returns `nil`. -/
  | waitWgDone (s : Sys) (hw : s.wait = WaitPhase.waitingWG)
      (hz : s.wg = 0) :
      Step s { s with wait := WaitPhase.returned none }
  /-- A launched body's goroutine completes and runs `wg.Done()`. -/
  | bodyDone (s : Sys) (hr : 0 < s.running) :
      Step s { s with running := s.running - 1, finished := s.finished + 1,
                      wg := s.wg - 1 }
  /-- The monitor observes `ctx.Err() != nil`, returns, and its deferred
  `wg.Done()` runs. -/
  | monitorExit (s : Sys) (hm : s.monitorAlive = true)
      (hd : s.mctxDone = true) :
      Step s { s with monitorAlive := false, wg := s.wg - 1 }

/-- States reachable from a fresh group by interleaved steps. -/
inductive Reachable : Sys → Prop where
  | init : Reachable initSys
  | step {s s' : Sys} : Reachable s → Step s s' → Reachable s'

/-- During sift-up with the out-of-place entry at `hole`: every parent/child
edge not entering `hole` is ordered, and `hole`'s children (if any) are no
earlier than `hole`'s parent, so the parent may move down into `hole`. -/
def UpState (l : List task) (hole : Nat) : Prop :=
  hole < l.length ∧
  (∀ c, c < l.length → 0 < c → c ≠ hole →
    (getT l ((c - 1) / 2)).Deadline ≤ (getT l c).Deadline) ∧
  (∀ c, c < l.length → 0 < c → (c - 1) / 2 = hole → 0 < hole →
    (getT l ((hole - 1) / 2)).Deadline ≤ (getT l c).Deadline)

/-- The heap shape restricted to the first `n` entries (the live region
during `heap.Pop`'s sift-down, which excludes the parked old root). -/
def HeapUpTo (l : List task) (n : Nat) : Prop :=
  ∀ c, c < n → 0 < c →
    (getT l ((c - 1) / 2)).Deadline ≤ (getT l c).Deadline

/-- During sift-down within bound `n` with the out-of-place entry at
`hole`: every edge in the region not entering a child of `hole` is
ordered, and `hole`'s children are no earlier than `hole`'s parent (once
`hole` has left the root). -/
def DownState (l : List task) (n hole : Nat) : Prop :=
  hole < n ∧ n ≤ l.length ∧
  (∀ c, c < n → 0 < c → (c - 1) / 2 ≠ hole →
    (getT l ((c - 1) / 2)).Deadline ≤ (getT l c).Deadline) ∧
  (∀ c, c < n → 0 < c → (c - 1) / 2 = hole → 0 < hole →
    (getT l ((hole - 1) / 2)).Deadline ≤ (getT l c).Deadline)

/-- The global invariant of the transition system: the `WaitGroup` counter
counts the monitor plus the running bodies; every launch is either running
or finished; once `Wait` is committed to success the heap is empty; and a
`nil` return from `Wait` implies full drain. -/
def SysInv (s : Sys) : Prop :=
  s.wg = (if s.monitorAlive then 1 else 0) + s.running ∧
  s.launched.length = s.running + s.finished ∧
  (s.wait = WaitPhase.waitingWG → s.heap = []) ∧
  (s.wait = WaitPhase.returned none →
    s.heap = [] ∧ s.running = 0 ∧ s.monitorAlive = false)

/-- A heap operation performed under the Group mutex: a push from
`Schedule` (many producers) or a pop from `trigger` (the single monitor). -/
inductive HeapOp where
  | push (t : task)
  | pop
deriving DecidableEq, Repr

/-- Apply one interleaved operation with Go's `container/heap`.  The
package never pops an empty heap (`trigger` checks `Len() > 0` first);
popping an empty heap here leaves it empty. -/
def applyOp (l : List task) : HeapOp → List task
  | HeapOp.push t => heapPush l t
  | HeapOp.pop => (heapPop l).2

/-- The heap after a sequence of interleaved pushes and pops starting from
the fresh group's empty heap. -/
def applyOps (ops : List HeapOp) : List task :=
  ops.foldl applyOp []

/-- `Schedule` called once per task of `ts`, in order, on a fresh group's
empty heap. -/
def scheduleAll (ts : List task) : List task :=
  ts.foldl (fun l t => Schedule l t.Deadline t.Call) []

theorem getT_eq_getElem {l : List task} {i : Nat} (h : i < l.length) :
    getT l i = l[i] :=
  List.getD_eq_getElem l ⟨0, 0⟩ h

theorem length_lswap (l : List task) (i j : Nat) :
    (lswap l i j).length = l.length := by
  simp [lswap]

theorem getT_set_self {l : List task} {i : Nat} (h : i < l.length)
    (a : task) : getT (l.set i a) i = a := by
  simp [getT, List.getD_eq_getElem?_getD, List.getElem?_set_self h]

theorem getT_set_ne {l : List task} {i k : Nat} (h : i ≠ k) (a : task) :
    getT (l.set i a) k = getT l k := by
  simp [getT, List.getD_eq_getElem?_getD, List.getElem?_set_ne h]

theorem getT_lswap {l : List task} {i j : Nat} (hi : i < l.length)
    (hj : j < l.length) (k : Nat) :
    getT (lswap l i j) k =
      if k = j then getT l i else if k = i then getT l j else getT l k := by
  unfold lswap
  rcases eq_or_ne k j with rfl | hkj
  · rw [getT_set_self (by simpa using hj), if_pos rfl]
  · rw [getT_set_ne (Ne.symm hkj), if_neg hkj]
    rcases eq_or_ne k i with rfl | hki
    · rw [getT_set_self hi, if_pos rfl]
    · rw [getT_set_ne (Ne.symm hki), if_neg hki]

theorem perm_lswap {l : List task} {i j : Nat} (hi : i < l.length)
    (hj : j < l.length) : (lswap l i j).Perm l := by
  rw [List.perm_iff_count]
  intro a
  have hj' : j < ((l.set i (getT l j)).length) := by simpa using hj
  unfold lswap
  rw [List.count_set _ _ _ _ hj', List.count_set _ _ _ _ hi]
  have h1 : (l.set i (getT l j))[j] = getT l j := by
    rcases eq_or_ne i j with rfl | hij
    · simpa using getT_set_self hi (getT l i)
    · rw [← getT_eq_getElem hj', getT_set_ne hij]
  have h2 : l[i] = getT l i := (getT_eq_getElem hi).symm
  rw [h1, h2]
  have hmemi : getT l i ∈ l := by
    rw [getT_eq_getElem hi]; exact List.getElem_mem hi
  simp only [beq_iff_eq]
  by_cases e2 : getT l i = a
  · have hpos : 0 < List.count a l := by
      rw [← e2]; exact List.count_pos_iff.mpr hmemi
    by_cases e1 : getT l j = a <;> simp only [e1, e2, if_pos, if_neg,
      if_true, if_false, reduceIte] <;> omega
  · by_cases e1 : getT l j = a <;> simp only [e1, e2, if_pos, if_neg,
      if_true, if_false, reduceIte] <;> omega

theorem getT_lswap_ne {l : List task} {i j k : Nat} (hki : k ≠ i)
    (hkj : k ≠ j) : getT (lswap l i j) k = getT l k := by
  unfold lswap
  rw [getT_set_ne (Ne.symm hkj), getT_set_ne (Ne.symm hki)]

theorem length_siftUp (fuel : Nat) (l : List task) (j : Nat) :
    (siftUp fuel l j).length = l.length := by
  induction fuel generalizing l j with
  | zero => rfl
  | succ fuel ih =>
    unfold siftUp
    split
    · rfl
    · split
      · rw [ih, length_lswap]
      · rfl

theorem perm_siftUp (fuel : Nat) (l : List task) (j : Nat)
    (hj : j < l.length) : (siftUp fuel l j).Perm l := by
  induction fuel generalizing l j with
  | zero => exact List.Perm.refl l
  | succ fuel ih =>
    unfold siftUp
    split
    · exact List.Perm.refl l
    · split
      · have hi : (j - 1) / 2 < l.length := lt_of_le_of_lt (by omega) hj
        exact ((ih _ _ (by rw [length_lswap]; exact hi)).trans
          (perm_lswap hi hj))
      · exact List.Perm.refl l

theorem upState_zero {l : List task} (h : UpState l 0) : IsMinHeap l := by
  intro c hc hc0
  exact h.2.1 c hc hc0 (by omega)

theorem upState_done {l : List task} {j : Nat} (h : UpState l j)
    (hj : 0 < j)
    (hle : (getT l ((j - 1) / 2)).Deadline ≤ (getT l j).Deadline) :
    IsMinHeap l := by
  intro c hc hc0
  rcases eq_or_ne c j with rfl | hne
  · exact hle
  · exact h.2.1 c hc hc0 hne

theorem upState_swap {l : List task} {j : Nat} (h : UpState l j)
    (hj : 0 < j)
    (hlt : (getT l j).Deadline < (getT l ((j - 1) / 2)).Deadline) :
    UpState (lswap l ((j - 1) / 2) j) ((j - 1) / 2) := by
  obtain ⟨hjl, hedge, hkids⟩ := h
  set i := (j - 1) / 2 with hi
  have hij : i < j := by omega
  have hil : i < l.length := lt_trans hij hjl
  have hg : ∀ k, getT (lswap l i j) k =
      if k = j then getT l i else if k = i then getT l j else getT l k :=
    getT_lswap hil hjl
  refine ⟨by rw [length_lswap]; exact hil, ?_, ?_⟩
  · intro c hc hc0 hci
    rw [length_lswap] at hc
    rcases eq_or_ne c j with rfl | hcj
    · -- the edge from the new hole `i` into `j`, which now holds the old
      -- parent value
      have hpj : (c - 1) / 2 = i := hi.symm
      rw [hpj, hg c, hg i, if_pos rfl, if_neg (by omega), if_pos rfl]
      exact le_of_lt hlt
    · rw [hg c, if_neg hcj, if_neg hci]
      rcases eq_or_ne ((c - 1) / 2) j with hpj | hpj
      · -- `c` is a child of the old hole `j`; its new parent value is the
        -- old parent of `j`
        rw [hpj, hg j, if_pos rfl]
        exact hkids c hc hc0 hpj hj
      · rcases eq_or_ne ((c - 1) / 2) i with hpi | hpi
        · -- `c` is the sibling of `j` under `i`; the value moved into `i`
          -- is even smaller than the old one
          rw [hpi, hg i, if_neg (by omega), if_pos rfl]
          have h2 := hedge c hc hc0 hcj
          rw [hpi] at h2
          exact le_trans (le_of_lt hlt) h2
        · rw [hg ((c - 1) / 2), if_neg hpj, if_neg hpi]
          exact hedge c hc hc0 hcj
  · intro c hc hc0 hcp hi0
    rw [length_lswap] at hc
    have hpne : (i - 1) / 2 ≠ i := by omega
    have hpnj : (i - 1) / 2 ≠ j := by omega
    rw [hg ((i - 1) / 2), if_neg hpnj, if_neg hpne]
    rcases eq_or_ne c j with rfl | hcj
    · rw [hg c, if_pos rfl]
      exact hedge i hil hi0 (by omega)
    · have hci : c ≠ i := by omega
      rw [hg c, if_neg hcj, if_neg hci]
      calc (getT l ((i - 1) / 2)).Deadline
          ≤ (getT l i).Deadline := hedge i hil hi0 (by omega)
        _ ≤ (getT l c).Deadline := by
            have := hedge c hc hc0 hcj
            rwa [hcp] at this

theorem siftUp_isMinHeap (fuel : Nat) (l : List task) (j : Nat)
    (h : UpState l j) (hf : j ≤ fuel) : IsMinHeap (siftUp fuel l j) := by
  induction fuel generalizing l j with
  | zero =>
    have : j = 0 := by omega
    subst this
    exact upState_zero h
  | succ fuel ih =>
    unfold siftUp
    split
    · next hz => subst hz; exact upState_zero h
    · next hz =>
      split
      · next hlt =>
        refine ih _ _ (upState_swap h (by omega) hlt) (by omega)
      · next hge =>
        exact upState_done h (by omega) (by
          simp only [lessT, not_lt] at hge; exact hge)

theorem getT_append_lt {l : List task} {k : Nat} (h : k < l.length)
    (t : task) : getT (l ++ [t]) k = getT l k := by
  simp [getT, List.getD_eq_getElem?_getD, List.getElem?_append_left h]

theorem getT_append_len (l : List task) (t : task) :
    getT (l ++ [t]) l.length = t := by
  have h : l.length < (l ++ [t]).length := by simp
  rw [getT_eq_getElem h]
  simp

theorem upState_push {l : List task} (h : IsMinHeap l) (t : task) :
    UpState (l ++ [t]) l.length := by
  refine ⟨by simp, ?_, ?_⟩
  · intro c hc hc0 hcl
    simp only [List.length_append, List.length_cons, List.length_nil] at hc
    have hc' : c < l.length := by omega
    rw [getT_append_lt hc', getT_append_lt (lt_of_le_of_lt (by omega) hc')]
    exact h c hc' hc0
  · intro c hc hc0 hcp _
    simp only [List.length_append, List.length_cons, List.length_nil] at hc
    omega

theorem heapPush_isMinHeap {l : List task} (h : IsMinHeap l) (t : task) :
    IsMinHeap (heapPush l t) :=
  siftUp_isMinHeap l.length (l ++ [t]) l.length (upState_push h t)
    (Nat.le_refl _)

theorem heapPush_perm (l : List task) (t : task) :
    (heapPush l t).Perm (t :: l) :=
  (perm_siftUp l.length (l ++ [t]) l.length (by simp)).trans
    (List.perm_append_singleton t l)

theorem minChild_lt {l : List task} {i n : Nat} (h : 2 * i + 1 < n) :
    minChild l i n < n := by
  unfold minChild
  split <;> omega

theorem lt_minChild {l : List task} {i n : Nat} :
    i < minChild l i n := by
  unfold minChild
  split <;> omega

theorem minChild_le {l : List task} {i n : Nat} (h : 2 * i + 1 < n)
    (c : Nat) (hc : c < n) (hp : (c - 1) / 2 = i) (hc0 : 0 < c) :
    (getT l (minChild l i n)).Deadline ≤ (getT l c).Deadline := by
  have hc' : c = 2 * i + 1 ∨ c = 2 * i + 2 := by omega
  unfold minChild
  split
  · next hcond =>
    rcases hc' with rfl | rfl
    · exact le_of_lt hcond.2
    · exact le_refl _
  · next hcond =>
    rcases hc' with rfl | rfl
    · exact le_refl _
    · have : ¬ lessT l (2 * i + 2) (2 * i + 1) := fun hlt => hcond ⟨hc, hlt⟩
      exact not_lt.mp this

theorem length_siftDown (fuel : Nat) (l : List task) (i n : Nat) :
    (siftDown fuel l i n).length = l.length := by
  induction fuel generalizing l i with
  | zero => rfl
  | succ fuel ih =>
    unfold siftDown
    split
    · split
      · rw [ih, length_lswap]
      · rfl
    · rfl

theorem perm_siftDown (fuel : Nat) (l : List task) (i n : Nat)
    (hn : n ≤ l.length) : (siftDown fuel l i n).Perm l := by
  induction fuel generalizing l i with
  | zero => exact List.Perm.refl l
  | succ fuel ih =>
    unfold siftDown
    split
    · next hch =>
      split
      · have hi : i < l.length := by omega
        have hj : minChild l i n < l.length :=
          lt_of_lt_of_le (minChild_lt hch) hn
        exact (ih _ _ (by rw [length_lswap]; exact hn)).trans
          (perm_lswap hi hj)
      · exact List.Perm.refl l
    · exact List.Perm.refl l

theorem getT_siftDown_ge (fuel : Nat) (l : List task) (i n k : Nat)
    (hk : n ≤ k) : getT (siftDown fuel l i n) k = getT l k := by
  induction fuel generalizing l i with
  | zero => rfl
  | succ fuel ih =>
    unfold siftDown
    split
    · next hch =>
      split
      · rw [ih]
        exact getT_lswap_ne (by omega) (by have := minChild_lt (l := l) hch; omega)
      · rfl
    · rfl

theorem downState_noChild {l : List task} {n hole : Nat}
    (h : DownState l n hole) (hch : ¬ 2 * hole + 1 < n) : HeapUpTo l n := by
  intro c hc hc0
  rcases eq_or_ne ((c - 1) / 2) hole with hp | hp
  · omega
  · exact h.2.2.1 c hc hc0 hp

theorem downState_stay {l : List task} {n hole : Nat}
    (h : DownState l n hole) (hch : 2 * hole + 1 < n)
    (hge : ¬ lessT l (minChild l hole n) hole) : HeapUpTo l n := by
  intro c hc hc0
  rcases eq_or_ne ((c - 1) / 2) hole with hp | hp
  · rw [hp]
    exact le_trans (not_lt.mp hge) (minChild_le hch c hc hp hc0)
  · exact h.2.2.1 c hc hc0 hp

theorem downState_swap {l : List task} {n hole : Nat}
    (h : DownState l n hole) (hch : 2 * hole + 1 < n)
    (hlt : lessT l (minChild l hole n) hole) :
    DownState (lswap l hole (minChild l hole n)) n (minChild l hole n) := by
  obtain ⟨hhn, hnl, hedge, hkids⟩ := h
  set j := minChild l hole n with hjdef
  have hjn : j < n := minChild_lt hch
  have hhj : hole < j := lt_minChild
  have hjpar : (j - 1) / 2 = hole := by
    rw [hjdef]; unfold minChild; split <;> omega
  have hg : ∀ k, getT (lswap l hole j) k =
      if k = j then getT l hole else if k = hole then getT l j
      else getT l k :=
    getT_lswap (by omega) (by omega)
  have hlt' : (getT l j).Deadline < (getT l hole).Deadline := hlt
  refine ⟨hjn, by rw [length_lswap]; exact hnl, ?_, ?_⟩
  · intro c hc hc0 hp
    rcases eq_or_ne c j with rfl | hcj
    · -- the edge from `hole` into the new hole `c = j`
      rw [hjpar, hg j, hg hole, if_pos rfl, if_neg (by omega), if_pos rfl]
      exact le_of_lt hlt'
    · rcases eq_or_ne c hole with rfl | hchole
      · -- the edge into `hole`, which now holds the smaller child value
        have hph : (c - 1) / 2 ≠ c := by omega
        rw [hg c, if_neg hcj, if_pos rfl,
          hg ((c - 1) / 2), if_neg (by omega), if_neg hph]
        exact hkids j hjn (by omega) hjpar hc0
      · rw [hg c, if_neg hcj, if_neg hchole]
        rcases eq_or_ne ((c - 1) / 2) hole with hph | hph
        · -- `c` is the sibling of `j` under `hole`
          rw [hph, hg hole, if_neg (by omega), if_pos rfl]
          exact minChild_le hch c hc hph hc0
        · rw [hg ((c - 1) / 2), if_neg hp, if_neg hph]
          exact hedge c hc hc0 hph
  · intro c hc hc0 hp hj0
    rw [hjpar, hg hole, if_neg (by omega), if_pos rfl]
    have hcj : c ≠ j := by omega
    have hchole : c ≠ hole := by omega
    rw [hg c, if_neg hcj, if_neg hchole]
    have h2 := hedge c hc hc0 (by omega)
    rwa [hp] at h2

theorem siftDown_heapUpTo (fuel : Nat) (l : List task) (hole n : Nat)
    (h : DownState l n hole) (hf : n - hole ≤ fuel) :
    HeapUpTo (siftDown fuel l hole n) n := by
  induction fuel generalizing l hole with
  | zero =>
    have := h.1
    omega
  | succ fuel ih =>
    unfold siftDown
    split
    · next hch =>
      split
      · next hlt =>
        have hhj : hole < minChild l hole n := lt_minChild
        have hjn : minChild l hole n < n := minChild_lt hch
        exact ih _ _ (downState_swap h hch hlt) (by omega)
      · next hge => exact downState_stay h hch hge
    · next hch => exact downState_noChild h hch

theorem getT_take {l : List task} {n k : Nat} (hk : k < n) :
    getT (l.take n) k = getT l k := by
  simp [getT, List.getD_eq_getElem?_getD, List.getElem?_take, hk]

theorem heapUpTo_take {l : List task} {n : Nat} (h : HeapUpTo l n)
    (hn : n ≤ l.length) : IsMinHeap (l.take n) := by
  intro c hc hc0
  rw [List.length_take] at hc
  have hc' : c < n := by omega
  rw [getT_take hc', getT_take (by omega)]
  exact h c hc' hc0

theorem heapPop_fst {l : List task} (h : l ≠ []) :
    (heapPop l).1 = getT l 0 := by
  match l with
  | [] => exact absurd rfl h
  | x :: xs =>
    show getT (siftDown _ _ 0 ((x :: xs).length - 1)) ((x :: xs).length - 1)
      = getT (x :: xs) 0
    rw [getT_siftDown_ge _ _ _ _ _ (Nat.le_refl _)]
    rw [getT_lswap (by simp) (by simp)]
    simp

theorem heapPop_isMinHeap {l : List task} (h : IsMinHeap l) :
    IsMinHeap (heapPop l).2 := by
  match l with
  | [] => intro c hc hc0; simp [heapPop] at hc
  | x :: xs =>
    show IsMinHeap ((siftDown (x :: xs).length _ 0 ((x :: xs).length - 1)).take
      ((x :: xs).length - 1))
    set L := x :: xs with hL
    set n := L.length - 1 with hn
    have hlen : L.length = n + 1 := by rw [hn]; simp [hL]
    rcases Nat.eq_zero_or_pos n with hz | hpos
    · intro c hc hc0
      rw [List.length_take, hz] at hc
      omega
    · have hds : DownState (lswap L 0 n) n 0 := by
        refine ⟨hpos, by rw [length_lswap]; omega, ?_, ?_⟩
        · intro c hc hc0 hp
          rw [getT_lswap_ne (by omega) (by omega),
            getT_lswap_ne (by omega) (by omega)]
          exact h c (by omega) hc0
        · intro c hc hc0 hp h0
          omega
      have hup : HeapUpTo (siftDown L.length (lswap L 0 n) 0 n) n :=
        siftDown_heapUpTo L.length _ 0 n hds (by omega)
      exact heapUpTo_take hup (by rw [length_siftDown, length_lswap]; omega)

theorem heapPop_perm {l : List task} (h : l ≠ []) :
    ((heapPop l).1 :: (heapPop l).2).Perm l := by
  match l with
  | [] => exact absurd rfl h
  | x :: xs =>
    set L := x :: xs with hL
    set n := L.length - 1 with hn
    set l2 := siftDown L.length (lswap L 0 n) 0 n with hl2
    have hlen : L.length = n + 1 := by rw [hn]; simp [hL]
    have hlen2 : l2.length = n + 1 := by
      rw [hl2, length_siftDown, length_lswap]; exact hlen
    have hperm : l2.Perm L := by
      have h1 : (lswap L 0 n).length = L.length := length_lswap L 0 n
      exact (perm_siftDown _ _ _ _ (by rw [h1]; omega)).trans
        (perm_lswap (by omega) (by omega))
    have hsplit : l2.take n ++ [getT l2 n] = l2 := by
      have hdrop : l2.drop n = [getT l2 n] := by
        rw [List.drop_eq_getElem_cons (by omega),
          List.drop_eq_nil_of_le (by omega), getT_eq_getElem (by omega)]
      rw [← hdrop, List.take_append_drop]
    show ((getT l2 n : task) :: l2.take n).Perm L
    refine List.Perm.trans ?_ hperm
    refine List.Perm.trans (List.perm_append_singleton _ _).symm ?_
    rw [hsplit]

theorem heapPop_length {l : List task} (h : l ≠ []) :
    (heapPop l).2.length = l.length - 1 := by
  match l with
  | [] => exact absurd rfl h
  | x :: xs =>
    show ((siftDown _ _ 0 ((x :: xs).length - 1)).take
      ((x :: xs).length - 1)).length = (x :: xs).length - 1
    rw [List.length_take, length_siftDown, length_lswap]
    omega

theorem root_min {l : List task} (h : IsMinHeap l) :
    ∀ k, k < l.length → (getT l 0).Deadline ≤ (getT l k).Deadline := by
  intro k
  induction k using Nat.strong_induction_on with
  | _ k ih =>
    intro hk
    rcases Nat.eq_zero_or_pos k with rfl | hpos
    · exact le_refl _
    · exact le_trans (ih ((k - 1) / 2) (by omega) (by omega)) (h k hk hpos)

theorem root_min_mem {l : List task} (h : IsMinHeap l) :
    ∀ t ∈ l, (getT l 0).Deadline ≤ t.Deadline := by
  intro t ht
  obtain ⟨k, hk, rfl⟩ := List.mem_iff_getElem.mp ht
  rw [← getT_eq_getElem hk]
  exact root_min h k hk

theorem triggerLoop_spec (fuel : Nat) (l : List task) (now : Int)
    (hf : l.length ≤ fuel) (hh : IsMinHeap l) :
    ((triggerLoop fuel l now).1 ++ (triggerLoop fuel l now).2.1).Perm l ∧
    (∀ t ∈ (triggerLoop fuel l now).1, t.Deadline ≤ now) ∧
    (∀ t ∈ (triggerLoop fuel l now).2.1, now < t.Deadline) ∧
    IsMinHeap (triggerLoop fuel l now).2.1 ∧
    List.Sorted (fun a b : task => a.Deadline ≤ b.Deadline)
      (triggerLoop fuel l now).1 ∧
    ((triggerLoop fuel l now).2.1 = [] → (triggerLoop fuel l now).2.2 = 0) ∧
    ((triggerLoop fuel l now).2.1 ≠ [] →
      (triggerLoop fuel l now).2.2 =
        (getT (triggerLoop fuel l now).2.1 0).Deadline) := by
  induction fuel generalizing l with
  | zero =>
    have hl : l = [] := List.length_eq_zero.mp (by omega)
    subst hl
    refine ⟨List.Perm.refl _, ?_, ?_, ?_, ?_, ?_, ?_⟩ <;>
      simp [triggerLoop, IsMinHeap]
  | succ fuel ih =>
    match l with
    | [] =>
      refine ⟨List.Perm.refl _, ?_, ?_, ?_, ?_, ?_, ?_⟩ <;>
        simp [triggerLoop, IsMinHeap]
    | x :: xs =>
      by_cases hrdy : now < (getT (x :: xs) 0).Deadline
      · simp only [triggerLoop, if_pos hrdy]
        exact ⟨List.Perm.refl _, by simp,
          fun t ht => lt_of_lt_of_le hrdy (root_min_mem hh t ht), hh,
          by simp, by simp, by simp⟩
      · simp only [triggerLoop, if_neg hrdy]
        have hcons : (x :: xs : List task) ≠ [] := by simp
        have hlen : (heapPop (x :: xs)).2.length = xs.length :=
          by rw [heapPop_length hcons]; simp
        have hpp : ((heapPop (x :: xs)).1 :: (heapPop (x :: xs)).2).Perm
            (x :: xs) := heapPop_perm hcons
        have hmh : IsMinHeap (heapPop (x :: xs)).2 := heapPop_isMinHeap hh
        obtain ⟨ihperm, ihpop, ihrest, ihheap, ihsort, ihz, ihnz⟩ :=
          ih (heapPop (x :: xs)).2 (by simp at hf ⊢; omega) hmh
        have hfst : (heapPop (x :: xs)).1 = getT (x :: xs) 0 :=
          heapPop_fst hcons
        have hrootle : (getT (x :: xs) 0).Deadline ≤ now := not_lt.mp hrdy
        have hmtogether : ∀ b ∈ (triggerLoop fuel (heapPop (x :: xs)).2
            now).1, b ∈ (x :: xs) := by
          intro b hb
          have : b ∈ (heapPop (x :: xs)).2 :=
            ihperm.mem_iff.mp (List.mem_append_left _ hb)
          exact hpp.mem_iff.mp (List.mem_cons_of_mem _ this)
        refine ⟨?_, ?_, ihrest, ihheap, ?_, ihz, ihnz⟩
        · show ((heapPop (x :: xs)).1 ::
            ((triggerLoop fuel (heapPop (x :: xs)).2 now).1 ++
             (triggerLoop fuel (heapPop (x :: xs)).2 now).2.1)).Perm (x :: xs)
          exact (ihperm.cons (heapPop (x :: xs)).1).trans hpp
        · intro t ht
          rcases List.mem_cons.mp ht with rfl | ht'
          · rw [hfst]; exact hrootle
          · exact ihpop t ht'
        · rw [List.sorted_cons]
          refine ⟨?_, ihsort⟩
          intro b hb
          rw [hfst]
          exact root_min_mem hh b (hmtogether b hb)

theorem triggerGo_spec (l : List task) (now : Int) (hh : IsMinHeap l) :
    ((triggerGo l now).1 ++ (triggerGo l now).2.1).Perm l ∧
    (∀ t ∈ (triggerGo l now).1, t.Deadline ≤ now) ∧
    (∀ t ∈ (triggerGo l now).2.1, now < t.Deadline) ∧
    IsMinHeap (triggerGo l now).2.1 ∧
    List.Sorted (fun a b : task => a.Deadline ≤ b.Deadline)
      (triggerGo l now).1 ∧
    ((triggerGo l now).2.1 = [] → (triggerGo l now).2.2 = 0) ∧
    ((triggerGo l now).2.1 ≠ [] →
      (triggerGo l now).2.2 = (getT (triggerGo l now).2.1 0).Deadline) :=
  triggerLoop_spec l.length l now (Nat.le_refl _) hh

theorem triggerGo_nil (now : Int) : triggerGo [] now = ([], [], 0) := rfl

theorem sysInv_init : SysInv initSys := by
  refine ⟨rfl, rfl, ?_, ?_⟩ <;> intro h <;> exact absurd h (by decide)

theorem sysInv_step {s s' : Sys} (h : SysInv s) (hs : Step s s') :
    SysInv s' := by
  obtain ⟨i1, i2, i3, i4⟩ := h
  cases hs with
  | schedule when fn hw =>
    refine ⟨i1, i2, fun hww => ?_, fun hww => ?_⟩ <;> simp [hw] at hww
  | cancelOuter e he =>
    refine ⟨i1, i2, fun hww => ?_, fun hww => ?_⟩
    · simp only [] at hww
      exact i3 hww
    · simp only [] at hww
      exact i4 hww
  | triggerSilent now hm =>
    refine ⟨?_, ?_, fun hww => ?_, fun hww => ?_⟩
    · cases hma : s.monitorAlive <;>
        simp [hma, triggerAt] at i1 ⊢ <;> omega
    · simp [triggerAt]
      omega
    · simp only [triggerAt] at hww ⊢
      rw [i3 hww, triggerGo_nil]
    · simp only [triggerAt] at hww ⊢
      obtain ⟨h1, h2, h3⟩ := i4 hww
      rw [h1, triggerGo_nil]
      exact ⟨rfl, by simpa using h2, h3⟩
  | triggerDeliver now hm hw =>
    rcases hctx : s.ctxErr with _ | e
    · by_cases hn : (triggerGo s.heap now).2.1.length = 0
      · refine ⟨?_, ?_, fun hww => ?_, fun hww => ?_⟩
        · cases hma : s.monitorAlive <;>
            simp [hma, recvLen, triggerAt, hctx, hn] at i1 ⊢ <;> omega
        · simp [recvLen, triggerAt, hctx, hn]
          omega
        · simp [recvLen, triggerAt, hctx, hn] at hww ⊢
          exact List.length_eq_zero.mp hn
        · simp [recvLen, triggerAt, hctx, hn] at hww
      · refine ⟨?_, ?_, fun hww => ?_, fun hww => ?_⟩
        · cases hma : s.monitorAlive <;>
            simp [hma, recvLen, triggerAt, hctx, hn] at i1 ⊢ <;> omega
        · simp [recvLen, triggerAt, hctx, hn]
          omega
        · simp [recvLen, triggerAt, hctx, hn] at hww
        · simp [recvLen, triggerAt, hctx, hn] at hww
    · refine ⟨?_, ?_, fun hww => ?_, fun hww => ?_⟩
      · cases hma : s.monitorAlive <;>
          simp [hma, recvLen, triggerAt, hctx] at i1 ⊢ <;> omega
      · simp [recvLen, triggerAt, hctx]
        omega
      · simp [recvLen, triggerAt, hctx] at hww
      · simp [recvLen, triggerAt, hctx] at hww
  | waitEnter hw =>
    rcases hctx : s.ctxErr with _ | e
    · by_cases hz : s.heap.length = 0
      · refine ⟨?_, ?_, fun hww => ?_, fun hww => ?_⟩
        · simpa [waitEnterFn, hctx, hz] using i1
        · simpa [waitEnterFn, hctx, hz] using i2
        · simp [waitEnterFn, hctx, hz] at hww ⊢
          exact List.length_eq_zero.mp hz
        · simp [waitEnterFn, hctx, hz] at hww
      · refine ⟨?_, ?_, fun hww => ?_, fun hww => ?_⟩
        · simpa [waitEnterFn, hctx, hz] using i1
        · simpa [waitEnterFn, hctx, hz] using i2
        · simp [waitEnterFn, hctx, hz] at hww
        · simp [waitEnterFn, hctx, hz] at hww
    · refine ⟨?_, ?_, fun hww => ?_, fun hww => ?_⟩
      · simpa [waitEnterFn, hctx] using i1
      · simpa [waitEnterFn, hctx] using i2
      · simp [waitEnterFn, hctx] at hww
      · simp [waitEnterFn, hctx] at hww
  | waitCtxDone e hw he =>
    refine ⟨i1, i2, fun hww => ?_, fun hww => ?_⟩ <;> simp at hww
  | waitWgDone hw hz =>
    refine ⟨i1, i2, fun hww => ?_, fun _ => ?_⟩
    · simp at hww
    · refine ⟨i3 hw, ?_, ?_⟩
      · cases hma : s.monitorAlive <;> simp [hma] at i1 ⊢ <;> omega
      · cases hma : s.monitorAlive
        · simp [hma]
        · rw [hma] at i1
          exact absurd hz (by simp at i1; omega)
  | bodyDone hr =>
    refine ⟨?_, ?_, fun hww => i3 hww, fun hww => ?_⟩
    · cases hma : s.monitorAlive <;> simp [hma] at i1 ⊢ <;> omega
    · simp at i2 ⊢
      omega
    · obtain ⟨h1, h2, h3⟩ := i4 hww
      omega
  | monitorExit hm hd =>
    refine ⟨?_, i2, fun hww => i3 hww, fun hww => ?_⟩
    · rw [hm] at i1
      simp at i1 ⊢
      omega
    · obtain ⟨h1, h2, h3⟩ := i4 hww
      rw [hm] at h3
      exact absurd h3 (by simp)

theorem reachable_sysInv {s : Sys} (h : Reachable s) : SysInv s := by
  induction h with
  | init => exact sysInv_init
  | step _ hs ih => exact sysInv_step ih hs

theorem isMinHeap_nil : IsMinHeap [] := by
  intro c hc _
  simp at hc

theorem applyOp_isMinHeap {l : List task} (h : IsMinHeap l) (op : HeapOp) :
    IsMinHeap (applyOp l op) := by
  cases op with
  | push t => exact heapPush_isMinHeap h t
  | pop => exact heapPop_isMinHeap h

theorem foldl_applyOp_isMinHeap (ops : List HeapOp) :
    ∀ l, IsMinHeap l → IsMinHeap (ops.foldl applyOp l) := by
  induction ops with
  | nil => exact fun l h => h
  | cons op ops ih => exact fun l h => ih _ (applyOp_isMinHeap h op)

theorem applyOps_isMinHeap (ops : List HeapOp) : IsMinHeap (applyOps ops) :=
  foldl_applyOp_isMinHeap ops [] isMinHeap_nil

theorem foldl_schedule_perm (ts : List task) :
    ∀ acc, (ts.foldl (fun l t => Schedule l t.Deadline t.Call) acc).Perm
      (acc ++ ts) := by
  induction ts with
  | nil => exact fun acc => by simp
  | cons t ts ih =>
    intro acc
    refine (ih _).trans ?_
    refine List.Perm.trans (List.Perm.append_right ts (heapPush_perm acc t))
      List.perm_middle.symm

theorem scheduleAll_perm (ts : List task) : (scheduleAll ts).Perm ts :=
  foldl_schedule_perm ts []

theorem foldl_schedule_isMinHeap (ts : List task) :
    ∀ acc, IsMinHeap acc → IsMinHeap
      (ts.foldl (fun l t => Schedule l t.Deadline t.Call) acc) := by
  induction ts with
  | nil => exact fun acc h => h
  | cons t ts ih => exact fun acc h => ih _ (heapPush_isMinHeap h t)

theorem scheduleAll_isMinHeap (ts : List task) : IsMinHeap (scheduleAll ts) :=
  foldl_schedule_isMinHeap ts [] isMinHeap_nil

theorem getT_zero_mem {l : List task} (h : l ≠ []) : getT l 0 ∈ l := by
  match l with
  | [] => exact absurd rfl h
  | x :: xs => exact List.mem_cons_self x xs

theorem trigger_next_of_ne_nil {l : List task} {now : Int}
    (hh : IsMinHeap l) (hnow : 0 ≤ now)
    (hne : (triggerGo l now).2.1 ≠ []) :
    (triggerGo l now).2.2 = (getT (triggerGo l now).2.1 0).Deadline ∧
    (triggerGo l now).2.2 ≠ 0 := by
  obtain ⟨_, _, hrest, _, _, _, hnz⟩ := triggerGo_spec l now hh
  have heq := hnz hne
  have hmem := getT_zero_mem hne
  have hgt := hrest _ hmem
  exact ⟨heq, by rw [heq]; omega⟩

/-- Claim C4: for every heap state and instant `now`, `trigger(now)` pops
and launches exactly the tasks whose deadline is at or before `now`
(adding one wait-counter count per launch), leaves the later tasks on the
heap, and returns the new root's deadline when the heap remains non-empty
or the zero-instant sentinel when it has been emptied. -/
theorem c4_trigger_pops_ready (s : Sys) (now : Int)
    (hh : IsMinHeap s.heap) (hnow : 0 ≤ now) :
    (∀ t ∈ (triggerGo s.heap now).1, t.Deadline ≤ now) ∧
    (∀ t ∈ (triggerGo s.heap now).2.1, now < t.Deadline) ∧
    ((triggerGo s.heap now).1 ++ (triggerGo s.heap now).2.1).Perm s.heap ∧
    (triggerAt s now).wg = s.wg + (triggerGo s.heap now).1.length ∧
    (triggerAt s now).heap = (triggerGo s.heap now).2.1 ∧
    ((triggerGo s.heap now).2.1 = [] → (triggerGo s.heap now).2.2 = 0) ∧
    ((triggerGo s.heap now).2.1 ≠ [] →
      (triggerGo s.heap now).2.2 =
        (getT (triggerGo s.heap now).2.1 0).Deadline ∧
      (triggerGo s.heap now).2.2 ≠ 0) := by
  obtain ⟨hperm, hpop, hrest, _, _, hz, _⟩ := triggerGo_spec s.heap now hh
  exact ⟨hpop, hrest, hperm, rfl, rfl, hz,
    trigger_next_of_ne_nil hh hnow⟩

/-- Claim C4 witness: a one-task heap with a ripe deadline, triggered at
`now = 2`. -/
theorem c4_trigger_pops_ready_witness :
    (∀ t ∈ (triggerGo [(⟨1, 0⟩ : task)] 2).1, t.Deadline ≤ 2) ∧
    (∀ t ∈ (triggerGo [(⟨1, 0⟩ : task)] 2).2.1, 2 < t.Deadline) ∧
    ((triggerGo [(⟨1, 0⟩ : task)] 2).1 ++
      (triggerGo [(⟨1, 0⟩ : task)] 2).2.1).Perm [⟨1, 0⟩] ∧
    (triggerAt { initSys with heap := [⟨1, 0⟩] } 2).wg =
      ({ initSys with heap := [⟨1, 0⟩] } : Sys).wg +
        (triggerGo [(⟨1, 0⟩ : task)] 2).1.length ∧
    (triggerAt { initSys with heap := [⟨1, 0⟩] } 2).heap =
      (triggerGo [(⟨1, 0⟩ : task)] 2).2.1 ∧
    ((triggerGo [(⟨1, 0⟩ : task)] 2).2.1 = [] →
      (triggerGo [(⟨1, 0⟩ : task)] 2).2.2 = 0) ∧
    ((triggerGo [(⟨1, 0⟩ : task)] 2).2.1 ≠ [] →
      (triggerGo [(⟨1, 0⟩ : task)] 2).2.2 =
        (getT (triggerGo [(⟨1, 0⟩ : task)] 2).2.1 0).Deadline ∧
      (triggerGo [(⟨1, 0⟩ : task)] 2).2.2 ≠ 0) :=
  c4_trigger_pops_ready { initSys with heap := [⟨1, 0⟩] } 2
    (by decide) (by decide)

/-- Claim C5: within a single `trigger(now)` pass the popped-and-started
tasks have non-decreasing deadlines, and when the heap's deadlines are
pairwise distinct the launch order is strictly increasing in deadline. -/
theorem c5_trigger_launch_order (l : List task) (now : Int)
    (hh : IsMinHeap l) :
    List.Sorted (fun a b : task => a.Deadline ≤ b.Deadline)
      (triggerGo l now).1 ∧
    (List.Pairwise (fun a b : task => a.Deadline ≠ b.Deadline) l →
      List.Pairwise (fun a b : task => a.Deadline < b.Deadline)
        (triggerGo l now).1) := by
  obtain ⟨hperm, _, _, _, hsort, _, _⟩ := triggerGo_spec l now hh
  refine ⟨hsort, fun hd => ?_⟩
  have hd' := (hperm.pairwise_iff (fun h => h.symm)).mpr hd
  have hdp := hd'.sublist (List.sublist_append_left _ _)
  exact (hsort.and hdp).imp fun h => lt_of_le_of_ne h.1 h.2

/-- Claim C5 witness: a three-task heap with distinct ripe deadlines. -/
theorem c5_trigger_launch_order_witness :
    List.Sorted (fun a b : task => a.Deadline ≤ b.Deadline)
      (triggerGo (heapPush (heapPush (heapPush [] ⟨5, 0⟩) ⟨3, 1⟩) ⟨4, 2⟩)
        9).1 ∧
    (List.Pairwise (fun a b : task => a.Deadline ≠ b.Deadline)
        (heapPush (heapPush (heapPush [] ⟨5, 0⟩) ⟨3, 1⟩) ⟨4, 2⟩) →
      List.Pairwise (fun a b : task => a.Deadline < b.Deadline)
        (triggerGo (heapPush (heapPush (heapPush [] ⟨5, 0⟩) ⟨3, 1⟩) ⟨4, 2⟩)
          9).1) :=
  c5_trigger_launch_order _ 9 (by decide)

/-- Claim C6: the min-heap invariant is preserved by every `Schedule` push
and every `trigger` pop, so after any interleaved sequence of pushes and
pops the root of a non-empty heap carries the smallest deadline in the
heap. -/
theorem c6_heap_invariant (ops : List HeapOp) :
    IsMinHeap (applyOps ops) ∧
    (applyOps ops ≠ [] →
      ∀ t ∈ applyOps ops,
        (getT (applyOps ops) 0).Deadline ≤ t.Deadline) :=
  ⟨applyOps_isMinHeap ops,
    fun _ => root_min_mem (applyOps_isMinHeap ops)⟩

/-- Claim C6 witness: three pushes and a pop leave a heap whose root is
minimal. -/
theorem c6_heap_invariant_witness :
    ∀ t ∈ applyOps [HeapOp.push ⟨5, 0⟩, HeapOp.push ⟨3, 1⟩,
      HeapOp.push ⟨4, 2⟩, HeapOp.pop],
      (getT (applyOps [HeapOp.push ⟨5, 0⟩, HeapOp.push ⟨3, 1⟩,
        HeapOp.push ⟨4, 2⟩, HeapOp.pop]) 0).Deadline ≤ t.Deadline :=
  (c6_heap_invariant _).2 (by decide)

/-- Claim C7: every task accepted by `Schedule` is popped and launched
exactly once; scheduling the tasks of `ts` and triggering past all their
deadlines launches a permutation of `ts` (so exactly `ts.length` bodies,
none twice) and empties the heap. -/
theorem c7_run_exactly_once (ts : List task) (now : Int)
    (hall : ∀ t ∈ ts, t.Deadline ≤ now) :
    ((triggerGo (scheduleAll ts) now).1).Perm ts ∧
    (triggerGo (scheduleAll ts) now).1.length = ts.length ∧
    (triggerGo (scheduleAll ts) now).2.1 = [] := by
  have hh := scheduleAll_isMinHeap ts
  obtain ⟨hperm, _, hrest, _, _, _, _⟩ := triggerGo_spec (scheduleAll ts) now hh
  have hsp := scheduleAll_perm ts
  have hrestnil : (triggerGo (scheduleAll ts) now).2.1 = [] := by
    rw [List.eq_nil_iff_forall_not_mem]
    intro t ht
    have h1 : t ∈ scheduleAll ts :=
      hperm.mem_iff.mp (List.mem_append_right _ ht)
    exact absurd (hall t (hsp.mem_iff.mp h1)) (not_le.mpr (hrest t ht))
  have hp2 : ((triggerGo (scheduleAll ts) now).1).Perm ts := by
    have h2 := hperm
    rw [hrestnil, List.append_nil] at h2
    exact h2.trans hsp
  exact ⟨hp2, hp2.length_eq, hrestnil⟩

/-- Claim C7 witness: two scheduled tasks, triggered past both
deadlines. -/
theorem c7_run_exactly_once_witness :
    ((triggerGo (scheduleAll [⟨1, 0⟩, ⟨2, 1⟩]) 5).1).Perm
      [⟨1, 0⟩, ⟨2, 1⟩] ∧
    (triggerGo (scheduleAll [⟨1, 0⟩, ⟨2, 1⟩]) 5).1.length =
      ([⟨1, 0⟩, ⟨2, 1⟩] : List task).length ∧
    (triggerGo (scheduleAll [⟨1, 0⟩, ⟨2, 1⟩]) 5).2.1 = [] :=
  c7_run_exactly_once [⟨1, 0⟩, ⟨2, 1⟩] 5 (by decide)

/-- Claim C8: on a monitor iteration, when `trigger` returns a
next-deadline instant the single reusable timer is reset for `next - now`
and its channel joins the select; when `trigger` returns the zero-instant
sentinel the timer is stopped and its channel stays `nil`, so the select
blocks only on cancellation and the added signal. -/
theorem c8_monitor_timer (l : List task) (now : Int) (hh : IsMinHeap l)
    (hnow : 0 ≤ now) :
    ((triggerGo l now).2.1 ≠ [] →
      monitorTimer (triggerGo l now).2.2 now =
        ⟨some ((triggerGo l now).2.2 - now), true⟩ ∧
      monitorSelect (monitorTimer (triggerGo l now).2.2 now) =
        [MonChan.ctxDone, MonChan.addC, MonChan.tick]) ∧
    ((triggerGo l now).2.1 = [] →
      monitorTimer (triggerGo l now).2.2 now = ⟨none, false⟩ ∧
      monitorSelect (monitorTimer (triggerGo l now).2.2 now) =
        [MonChan.ctxDone, MonChan.addC]) := by
  obtain ⟨_, _, _, _, _, hz, _⟩ := triggerGo_spec l now hh
  constructor
  · intro hne
    have hnz := (trigger_next_of_ne_nil hh hnow hne).2
    rw [monitorTimer, if_pos hnz]
    exact ⟨rfl, by simp [monitorSelect]⟩
  · intro hnil
    rw [monitorTimer, if_neg (by simpa using hz hnil)]
    exact ⟨rfl, by simp [monitorSelect]⟩

/-- Claim C8 witness: a heap with one ripe and one future task at
`now = 2`, and the empty heap at `now = 2`. -/
theorem c8_monitor_timer_witness :
    (((triggerGo (heapPush (heapPush [] ⟨1, 0⟩) ⟨7, 1⟩) 2).2.1 ≠ [] →
      monitorTimer (triggerGo (heapPush (heapPush [] ⟨1, 0⟩) ⟨7, 1⟩)
          2).2.2 2 =
        ⟨some ((triggerGo (heapPush (heapPush [] ⟨1, 0⟩) ⟨7, 1⟩)
          2).2.2 - 2), true⟩ ∧
      monitorSelect (monitorTimer
        (triggerGo (heapPush (heapPush [] ⟨1, 0⟩) ⟨7, 1⟩) 2).2.2 2) =
        [MonChan.ctxDone, MonChan.addC, MonChan.tick]) ∧
     ((triggerGo (heapPush (heapPush [] ⟨1, 0⟩) ⟨7, 1⟩) 2).2.1 = [] →
      monitorTimer (triggerGo (heapPush (heapPush [] ⟨1, 0⟩) ⟨7, 1⟩)
          2).2.2 2 = ⟨none, false⟩ ∧
      monitorSelect (monitorTimer
        (triggerGo (heapPush (heapPush [] ⟨1, 0⟩) ⟨7, 1⟩) 2).2.2 2) =
        [MonChan.ctxDone, MonChan.addC])) ∧
    monitorTimer (triggerGo ([] : List task) 2).2.2 2 = ⟨none, false⟩ :=
  ⟨c8_monitor_timer (heapPush (heapPush [] ⟨1, 0⟩) ⟨7, 1⟩) 2
    (by decide) (by decide), by decide⟩

/-- Claim C9: `Delay(d, fn)` is exactly `Schedule(now + d, fn)` at the
current instant `now` (the spec-side definition `delaySpec`), and a
negative delay yields a past deadline, so the task is popped and launched
by the very next `trigger(now)` pass. -/
theorem c9_delay_equiv_schedule (l : List task) (now d : Int) (fn : Nat)
    (hh : IsMinHeap l) (hd : d < 0) :
    Delay l now d fn = delaySpec l now d fn ∧
    (⟨now + d, fn⟩ : task) ∈ (triggerGo (Delay l now d fn) now).1 := by
  refine ⟨rfl, ?_⟩
  have hh' : IsMinHeap (Delay l now d fn) :=
    heapPush_isMinHeap hh ⟨now + d, fn⟩
  obtain ⟨hperm, _, hrest, _, _, _, _⟩ :=
    triggerGo_spec (Delay l now d fn) now hh'
  have hmem : (⟨now + d, fn⟩ : task) ∈ Delay l now d fn :=
    (heapPush_perm l ⟨now + d, fn⟩).mem_iff.mpr (List.mem_cons_self _ _)
  rcases List.mem_append.mp (hperm.mem_iff.mpr hmem) with h | h
  · exact h
  · have := hrest _ h
    simp only [] at this
    omega

/-- Claim C9 witness: `Delay(-3, fn)` on an empty group at `now = 10`. -/
theorem c9_delay_equiv_schedule_witness :
    Delay [] 10 (-3) 7 = delaySpec [] 10 (-3) 7 ∧
    (⟨10 + (-3), 7⟩ : task) ∈ (triggerGo (Delay [] 10 (-3) 7) 10).1 :=
  c9_delay_equiv_schedule [] 10 (-3) 7 (by decide) (by decide)

/-- Claim C10: in `Wait`'s receive loop, after a remaining-count value is
received from `lenC`, the outer cancellation is rechecked and its error is
returned if it has fired — even when the received count is zero, so
cancellation takes priority over a concurrently observed zero count. -/
theorem c10_recheck_after_recv (s : Sys) (n : Nat) (e : CtxErr)
    (he : s.ctxErr = some e) :
    (recvLen s n).wait = WaitPhase.returned (some e) ∧
    (recvLen s 0).wait ≠ WaitPhase.waitingWG := by
  refine ⟨?_, ?_⟩ <;> simp [recvLen, he]

/-- Claim C10 witness: a cancelled context observed together with a zero
count. -/
theorem c10_recheck_after_recv_witness :
    (recvLen { initSys with ctxErr := some CtxErr.canceled } 0).wait =
      WaitPhase.returned (some CtxErr.canceled) ∧
    (recvLen { initSys with ctxErr := some CtxErr.canceled } 0).wait ≠
      WaitPhase.waitingWG :=
  c10_recheck_after_recv { initSys with ctxErr := some CtxErr.canceled }
    0 CtxErr.canceled rfl

/-- Claim C1 (code-bug evidence): the source's `Schedule` body (group.go
lines 67-81) contains no phase or context check and no failure path, so
its embedding is a total function that always pushes the task.  Here
`Wait` has been entered on a fresh empty group (it commits to success and
returns `nil`); a subsequent `Schedule` or `Delay` call is still silently
accepted — the task lands on the heap and the call returns normally —
contradicting the package's own `Delay` documentation ("If Delay is called
after a call to Wait, Delay will panic.") and the spec's `AfterWait`
failure. -/
theorem c1_schedule_after_wait_accepted :
    (waitEnterFn initSys).wait = WaitPhase.waitingWG ∧
    (∀ (l : List task) (when : Int) (fn : Nat),
      (Schedule l when fn).length = l.length + 1) ∧
    Schedule [] 5 0 = [⟨5, 0⟩] ∧
    Delay [] 10 (-3) 1 = [⟨7, 1⟩] := by
  refine ⟨rfl, ?_, by decide, by decide⟩
  intro l when fn
  show (siftUp l.length (l ++ [⟨when, fn⟩]) l.length).length = l.length + 1
  rw [length_siftUp]
  simp

/-- Claim C2: `Wait` returns success only once the task heap is empty and
every launched body has finished: in every reachable state in which `Wait`
has returned `nil`, the heap is empty, no launched body is still running,
and the finished count equals the number of launched bodies (the
wait-counter guarantee). -/
theorem c2_wait_success_drained (s : Sys) (hr : Reachable s)
    (hw : s.wait = WaitPhase.returned none) :
    s.heap = [] ∧ s.running = 0 ∧ s.finished = s.launched.length := by
  obtain ⟨i1, i2, i3, i4⟩ := reachable_sysInv hr
  obtain ⟨h1, h2, h3⟩ := i4 hw
  exact ⟨h1, h2, by omega⟩

/-- Claim C2 witness: the empty group, where `Wait` commits at entry, the
monitor exits, and `wg.Wait()` releases `Wait` with `nil`. -/
theorem c2_wait_success_drained_witness :
    ({ heap := [], launched := [], running := 0, finished := 0,
       monitorAlive := false, wg := 0, ctxErr := none, mctxDone := true,
       wait := WaitPhase.returned none } : Sys).heap = [] ∧
    ({ heap := [], launched := [], running := 0, finished := 0,
       monitorAlive := false, wg := 0, ctxErr := none, mctxDone := true,
       wait := WaitPhase.returned none } : Sys).running = 0 ∧
    ({ heap := [], launched := [], running := 0, finished := 0,
       monitorAlive := false, wg := 0, ctxErr := none, mctxDone := true,
       wait := WaitPhase.returned none } : Sys).finished =
      ({ heap := [], launched := [], running := 0, finished := 0,
         monitorAlive := false, wg := 0, ctxErr := none, mctxDone := true,
         wait := WaitPhase.returned none } : Sys).launched.length :=
  c2_wait_success_drained _
    (Reachable.step (Reachable.step (Reachable.step Reachable.init
      (Step.waitEnter initSys rfl)) (Step.monitorExit _ rfl rfl))
      (Step.waitWgDone _ rfl rfl)) rfl

/-- Claim C3 counterexample: an execution in which the outer cancellation
fires while `Wait`, having already observed the empty heap and called
`g.cancel()`, is blocked in `wg.Wait()`.  The cancellation has fired
("at some point"), yet `Wait` returns `nil`, not the cancellation's
error — so the claim as stated fails on this execution. -/
theorem c3_cancel_after_commit_counterexample :
    Reachable
      ({ heap := [], launched := [], running := 0, finished := 0,
         monitorAlive := false, wg := 0, ctxErr := some CtxErr.canceled,
         mctxDone := true, wait := WaitPhase.returned none } : Sys) ∧
    ({ heap := [], launched := [], running := 0, finished := 0,
       monitorAlive := false, wg := 0, ctxErr := some CtxErr.canceled,
       mctxDone := true, wait := WaitPhase.returned none } : Sys).ctxErr =
      some CtxErr.canceled ∧
    ({ heap := [], launched := [], running := 0, finished := 0,
       monitorAlive := false, wg := 0, ctxErr := some CtxErr.canceled,
       mctxDone := true, wait := WaitPhase.returned none } : Sys).wait =
      WaitPhase.returned none ∧
    WaitPhase.returned (none : Option CtxErr) ≠
      WaitPhase.returned (some CtxErr.canceled) :=
  ⟨Reachable.step (Reachable.step (Reachable.step (Reachable.step
      Reachable.init (Step.waitEnter initSys rfl))
      (Step.cancelOuter _ CtxErr.canceled rfl))
      (Step.monitorExit _ rfl rfl))
      (Step.waitWgDone _ rfl rfl),
   rfl, rfl, by decide⟩

/-- Claim C3 (amended): if the outer cancellation has already fired when
`Wait` is entered, `Wait` returns that error immediately and without
consulting the heap (the heap is untouched and the outcome is the same for
every heap contents); and once the cancellation has fired, every step that
moves `Wait` out of its receive loop returns exactly that error.  The
original claim's "fires at any point" fails only in the race where
cancellation fires after `Wait` has already observed a zero remaining
count and committed to success (see the counterexample). -/
theorem c3_cancellation_priority :
    (∀ (s : Sys) (e : CtxErr), s.ctxErr = some e →
      (waitEnterFn s).wait = WaitPhase.returned (some e) ∧
      (waitEnterFn s).heap = s.heap ∧
      (∀ h : List task, (waitEnterFn { s with heap := h }).wait =
        WaitPhase.returned (some e))) ∧
    (∀ (s s2 : Sys) (e : CtxErr), s.wait = WaitPhase.looping →
      s.ctxErr = some e → Step s s2 →
      s2.wait = WaitPhase.looping ∨
      s2.wait = WaitPhase.returned (some e)) := by
  constructor
  · intro s e he
    refine ⟨by simp [waitEnterFn, he], by simp [waitEnterFn, he],
      fun h => by simp [waitEnterFn, he]⟩
  · intro s s2 e hw he hst
    cases hst with
    | schedule when fn hw2 => simp [hw] at hw2
    | cancelOuter e2 hnone => simp [he] at hnone
    | triggerSilent now hm =>
      left
      simp [triggerAt, hw]
    | triggerDeliver now hm hw2 =>
      right
      simp [recvLen, triggerAt, he]
    | waitEnter hw2 => simp [hw] at hw2
    | waitCtxDone e2 hw2 he2 =>
      right
      rw [he] at he2
      injection he2 with h2
      simp [h2]
    | waitWgDone hw2 hz => simp [hw] at hw2
    | bodyDone hr =>
      left
      simp [hw]
    | monitorExit hm hd =>
      left
      simp [hw]

/-- Claim C3 (amended) witness: entry with an already-cancelled context,
and a loop exit through the done-channel branch. -/
theorem c3_cancellation_priority_witness :
    (waitEnterFn { initSys with ctxErr := some CtxErr.canceled }).wait =
      WaitPhase.returned (some CtxErr.canceled) ∧
    (({ initSys with
        ctxErr := some CtxErr.canceled,
        wait := WaitPhase.returned (some CtxErr.canceled) } : Sys).wait =
      WaitPhase.looping ∨
     ({ initSys with
        ctxErr := some CtxErr.canceled,
        wait := WaitPhase.returned (some CtxErr.canceled) } : Sys).wait =
      WaitPhase.returned (some CtxErr.canceled)) :=
  ⟨(c3_cancellation_priority.1
      { initSys with ctxErr := some CtxErr.canceled }
      CtxErr.canceled rfl).1,
   c3_cancellation_priority.2
      { initSys with
        ctxErr := some CtxErr.canceled,
        wait := WaitPhase.looping }
      { initSys with
        ctxErr := some CtxErr.canceled,
        wait := WaitPhase.returned (some CtxErr.canceled) }
      CtxErr.canceled rfl rfl
      (Step.waitCtxDone _ CtxErr.canceled rfl rfl)⟩

end Schedgroup
